import Mathlib

/-!
# Singleton variants: eager, lazy, mutex-guarded, double-checked locking

A verification development over the five `getInstance` functions of the
repository:

* `CHARACTERISTICS/Eager Initialization.cpp`        (`Eager`)
* `CHARACTERISTICS/Lazy Intialization.cpp`          (`LazyInit`)
* `CHARACTERISTICS/Single Instance.cpp`             (`SingleInstance`)
* `TYPES OF SINGLETON PATTERN/MUTEX/mutex.cpp`      (`Mutex`)
* `TYPES OF SINGLETON PATTERN/DOUBLE-CHECKED LOCKING/Double-checked Locking.cpp`
  (`DoubleChecked`)

The static members `instance` and `mtx` become fields of an explicit state
that every function takes and returns.  A pointer is an `Option Nat`:
`none` is `nullptr`, `some a` is the object at address `a`.  What the
expression `new T()` does when it is evaluated is a parameter of each call
(`NewOutcome`): it yields a fresh object at some address, or it throws.
-/

namespace Singleton

/-- A pointer value: `none` is `nullptr`, `some a` the object at address `a`. -/
abbrev Ptr := Option Nat

/-- The five source files. -/
inductive Variant where
  | eager
  | lazyInit
  | singleInstance
  | mutexGuarded
  | doubleChecked
  deriving DecidableEq

/-- What one evaluation of the expression `new T()` does: it returns the
address of the constructed object, or an exception leaves it. -/
inductive NewOutcome where
  | ok (addr : Nat)
  | throws
  deriving DecidableEq

/-- How a call of `getInstance` ends: it returns a pointer, an exception
propagates to the caller, or the call waits on `mtx` and never returns. -/
inductive CallResult where
  | returned (h : Ptr)
  | threw
  | blocked
  deriving DecidableEq

/-- The static members of the class together with the observable effects
accumulated so far. -/
structure World where
  /-- The member `static T* instance`. -/
  instancePtr : Ptr
  /-- The member `static std::mutex mtx`: `true` while it is locked. -/
  mtxLocked : Bool
  /-- How many times the construction logic `new T()` has been invoked. -/
  ctorCalls : Nat
  /-- How many times `mtx` has been locked. -/
  lockAcqs : Nat
  /-- How many times `mtx` has been unlocked. -/
  lockRels : Nat
  /-- The lines written to `cout`, oldest first. -/
  out : List String
  deriving DecidableEq

/-- The holder part of the state: the instance pointer and the guard. -/
def World.holder (w : World) : Ptr × Bool := (w.instancePtr, w.mtxLocked)

/-- The line a constructor body writes to `cout`; the constructor of
`mutex.cpp` has an empty body. -/
def ctorMessage : Variant → Option String
  | .eager => some "Singleton Instance Created\n"
  | .lazyInit => some "Logger instance created\n"
  | .singleInstance => some "Logger instance created\n"
  | .mutexGuarded => none
  | .doubleChecked => some "Constructor Called!\n"

/-- The expression `new T()`: the construction logic is invoked; when it
completes the constructor body has written its line and the address of the
object is the value, when it throws there is no value. -/
def newObject (v : Variant) (o : NewOutcome) (w : World) : Option Nat × World :=
  match o with
  | .ok a =>
    (some a, { w with ctorCalls := w.ctorCalls + 1,
                      out := w.out ++ (ctorMessage v).toList })
  | .throws => (none, { w with ctorCalls := w.ctorCalls + 1 })

/-- The constructor of `std::lock_guard`: `mtx.lock()`.  On a locked mutex
the caller waits: there is no next state. -/
def lock (w : World) : Option World :=
  if w.mtxLocked then none
  else some { w with mtxLocked := true, lockAcqs := w.lockAcqs + 1 }

/-- The destructor of `std::lock_guard`: `mtx.unlock()`. -/
def unlock (w : World) : World :=
  { w with mtxLocked := false, lockRels := w.lockRels + 1 }

/-- `Singleton::getInstance` of `Eager Initialization.cpp`. -/
def Eager.getInstance (w : World) : CallResult × World :=
  (.returned w.instancePtr, w)

/-- `Logger::getInstance` of `Lazy Intialization.cpp`. -/
def LazyInit.getInstance (o : NewOutcome) (w : World) : CallResult × World :=
  if w.instancePtr = none then
    match newObject .lazyInit o w with
    | (some a, w1) =>
      let w2 := { w1 with instancePtr := some a }
      (.returned w2.instancePtr, w2)
    | (none, w1) => (.threw, w1)
  else (.returned w.instancePtr, w)

/-- `Logger::getInstance` of `Single Instance.cpp`. -/
def SingleInstance.getInstance (o : NewOutcome) (w : World) : CallResult × World :=
  if w.instancePtr = none then
    match newObject .singleInstance o w with
    | (some a, w1) =>
      let w2 := { w1 with instancePtr := some a }
      (.returned w2.instancePtr, w2)
    | (none, w1) => (.threw, w1)
  else (.returned w.instancePtr, w)

/-- `Singleton::getInstance` of `mutex.cpp`: the `lock_guard` lives for the
whole body; the returned value is read before its destructor unlocks, and
the destructor also runs when the exception of `new` unwinds the frame. -/
def Mutex.getInstance (o : NewOutcome) (w : World) : CallResult × World :=
  match lock w with
  | none => (.blocked, w)
  | some w1 =>
    if w1.instancePtr = none then
      match newObject .mutexGuarded o w1 with
      | (some a, w2) =>
        let w3 := { w2 with instancePtr := some a }
        (.returned w3.instancePtr, unlock w3)
      | (none, w2) => (.threw, unlock w2)
    else (.returned w1.instancePtr, unlock w1)

/-- Lines 19 to 24 of `Double-checked Locking.cpp`: what `getInstance`
does once the first check has found `instance` null.  The `lock_guard`
lives for the inner block; `return instance` reads after it is gone. -/
def DoubleChecked.slowPath (o : NewOutcome) (w : World) : CallResult × World :=
  match lock w with
  | none => (.blocked, w)
  | some w1 =>
    if w1.instancePtr = none then
      match newObject .doubleChecked o w1 with
      | (some a, w2) =>
        let w3 := unlock { w2 with instancePtr := some a }
        (.returned w3.instancePtr, w3)
      | (none, w2) => (.threw, unlock w2)
    else
      let w3 := unlock w1
      (.returned w3.instancePtr, w3)

/-- `Singleton::getInstance` of `Double-checked Locking.cpp`. -/
def DoubleChecked.getInstance (o : NewOutcome) (w : World) : CallResult × World :=
  if w.instancePtr = none then DoubleChecked.slowPath o w
  else (.returned w.instancePtr, w)

/-- The `getInstance` of a source file. -/
def getInstance (v : Variant) (o : NewOutcome) (w : World) : CallResult × World :=
  match v with
  | .eager => Eager.getInstance w
  | .lazyInit => LazyInit.getInstance o w
  | .singleInstance => SingleInstance.getInstance o w
  | .mutexGuarded => Mutex.getInstance o w
  | .doubleChecked => DoubleChecked.getInstance o w

/-- The state before any static initialiser has run. -/
def World.empty : World :=
  { instancePtr := none, mtxLocked := false, ctorCalls := 0,
    lockAcqs := 0, lockRels := 0, out := [] }

/-- The state when `main` starts.  The lazy files initialise `instance` with
`nullptr`; `Eager Initialization.cpp` initialises it with `new Singleton()`,
and an exception leaving that initialiser terminates the program before
`main` (`none`). -/
def staticInit (v : Variant) (o : NewOutcome) : Option World :=
  match v with
  | .eager =>
    match newObject .eager o World.empty with
    | (some a, w) => some { w with instancePtr := some a }
    | (none, _) => none
  | _ => some World.empty

/-- The states a single thread can find the class in: the state at the start
of `main`, and the state after any call of `getInstance` from such a state. -/
inductive Reachable (v : Variant) : World → Prop where
  | init (o : NewOutcome) (w : World) : staticInit v o = some w → Reachable v w
  | call (o : NewOutcome) (w : World) :
      Reachable v w → Reachable v (getInstance v o w).2

/-- Successive calls of `getInstance` by one thread; the list gives, call by
call, what `new T()` does if that call evaluates it. -/
def runCalls (v : Variant) : List NewOutcome → World → List CallResult × World
  | [], w => ([], w)
  | o :: os, w =>
    let r := getInstance v o w
    let rest := runCalls v os r.2
    (r.1 :: rest.1, rest.2)

/-- `Logger::display` of `Lazy Intialization.cpp`. -/
def LazyInit.display (w : World) : World :=
  { w with out := w.out ++ ["LOG initiated\n"] }

/-- The function `main` of `Lazy Intialization.cpp`; `none` when an exception
leaves a call of `getInstance` (nothing catches it). -/
def LazyInit.main (o1 o2 : NewOutcome) : Option World :=
  match LazyInit.getInstance o1 World.empty with
  | (.returned logger1, w1) =>
    let w2 := LazyInit.display w1
    match LazyInit.getInstance o2 w2 with
    | (.returned logger2, w3) =>
      let w4 := LazyInit.display w3
      if logger1 = logger2 then some { w4 with out := w4.out ++ ["true"] }
      else some { w4 with out := w4.out ++ ["false"] }
    | _ => none
  | _ => none


/-! ## Threads -/

/-- Where a thread stands inside `getInstance`: the next thing it does. -/
inductive Pc where
  /-- Line 18 of `Double-checked Locking.cpp`: the unlocked read of `instance`. -/
  | check1
  /-- The constructor of the `lock_guard`. -/
  | acquire
  /-- The read of `instance` under the lock. -/
  | check2
  /-- The expression `new Singleton()`. -/
  | construct
  /-- The assignment of the new address to `instance`. -/
  | publish (a : Nat)
  /-- The end of the inner block of `Double-checked Locking.cpp`: the
  destructor of the `lock_guard`. -/
  | release
  /-- Line 24 of `Double-checked Locking.cpp`: `return instance`, no lock held. -/
  | readResult
  /-- Line 18 of `mutex.cpp`: `return instance`, the lock still held. -/
  | readLocked
  /-- The end of the body of `mutex.cpp`: the destructor of the `lock_guard`,
  the value to return already read. -/
  | releaseAfter (h : Ptr)
  /-- The call has returned `h`. -/
  | done (h : Ptr)
  deriving DecidableEq

/-- What one step of a thread does to the shared memory. -/
inductive Action where
  | readInstance (seen : Ptr)
  | writeInstance (a : Nat)
  | lockMtx
  | unlockMtx
  | runCtor (a : Nat)
  deriving DecidableEq

/-- One step of an execution: the thread and what it did. -/
structure Event where
  tid : Nat
  act : Action
  deriving DecidableEq

/-- One step of a thread that runs `Singleton::getInstance` of `mutex.cpp`;
`a` is the address its `new Singleton()` yields.  `none`: the thread cannot
move (it waits for `mtx`, or it has returned). -/
def Mutex.threadStep (a : Nat) (pc : Pc) (w : World) : Option (Pc × World × Action) :=
  match pc with
  | .acquire =>
    match lock w with
    | some w1 => some (.check2, w1, .lockMtx)
    | none => none
  | .check2 =>
    some (if w.instancePtr = none then .construct else .readLocked, w,
      .readInstance w.instancePtr)
  | .construct =>
    match newObject .mutexGuarded (.ok a) w with
    | (some p, w1) => some (.publish p, w1, .runCtor p)
    | (none, _) => none
  | .publish p => some (.readLocked, { w with instancePtr := some p }, .writeInstance p)
  | .readLocked => some (.releaseAfter w.instancePtr, w, .readInstance w.instancePtr)
  | .releaseAfter h => some (.done h, unlock w, .unlockMtx)
  | _ => none

/-- One step of a thread that runs `Singleton::getInstance` of
`Double-checked Locking.cpp`; `a` is the address its `new Singleton()`
yields.  `none`: the thread cannot move. -/
def DoubleChecked.threadStep (a : Nat) (pc : Pc) (w : World) :
    Option (Pc × World × Action) :=
  match pc with
  | .check1 =>
    some (if w.instancePtr = none then .acquire else .readResult, w,
      .readInstance w.instancePtr)
  | .acquire =>
    match lock w with
    | some w1 => some (.check2, w1, .lockMtx)
    | none => none
  | .check2 =>
    some (if w.instancePtr = none then .construct else .release, w,
      .readInstance w.instancePtr)
  | .construct =>
    match newObject .doubleChecked (.ok a) w with
    | (some p, w1) => some (.publish p, w1, .runCtor p)
    | (none, _) => none
  | .publish p => some (.release, { w with instancePtr := some p }, .writeInstance p)
  | .release => some (.readResult, unlock w, .unlockMtx)
  | .readResult => some (.done w.instancePtr, w, .readInstance w.instancePtr)
  | _ => none

/-- The two thread-safe files. -/
inductive Guarded where
  | mutexGuarded
  | doubleChecked
  deriving DecidableEq

/-- The source file of a guarded variant. -/
def Guarded.toVariant : Guarded → Variant
  | .mutexGuarded => .mutexGuarded
  | .doubleChecked => .doubleChecked

/-- The first thing a thread does when it calls `getInstance`. -/
def entry : Guarded → Pc
  | .mutexGuarded => .acquire
  | .doubleChecked => .check1

/-- One step of a thread inside `getInstance`. -/
def threadStep (g : Guarded) (a : Nat) (pc : Pc) (w : World) :
    Option (Pc × World × Action) :=
  match g with
  | .mutexGuarded => Mutex.threadStep a pc w
  | .doubleChecked => DoubleChecked.threadStep a pc w

/-- Several threads inside `getInstance`, the shared statics, and the steps
taken so far, oldest first. -/
structure Sys where
  world : World
  threads : List Pc
  trace : List Event
  deriving DecidableEq

/-- The program at the moment `n` threads call `getInstance`, no call made
before. -/
def initSys (g : Guarded) (n : Nat) : Sys :=
  { world := World.empty, threads := List.replicate n (entry g), trace := [] }

/-- Thread `t` takes its next step; `none` when there is no such thread or it
cannot move.  `addr t` is the address `new Singleton()` yields in thread `t`. -/
def sysStep (g : Guarded) (addr : Nat → Nat) (s : Sys) (t : Nat) : Option Sys :=
  match s.threads[t]? with
  | none => none
  | some pc =>
    match threadStep g (addr t) pc s.world with
    | none => none
    | some (pc1, w1, act) =>
      some { world := w1, threads := s.threads.set t pc1,
             trace := s.trace ++ [{ tid := t, act := act }] }

/-- An interleaving: the threads step in the order the schedule names them.
`none` when the schedule names a thread that cannot move at its turn. -/
def exec (g : Guarded) (addr : Nat → Nat) : Sys → List Nat → Option Sys
  | s, [] => some s
  | s, t :: ts =>
    match sysStep g addr s t with
    | none => none
    | some s1 => exec g addr s1 ts

/-- No thread can move. -/
def Sys.stuck (g : Guarded) (addr : Nat → Nat) (s : Sys) : Prop :=
  ∀ t, sysStep g addr s t = none

/-! ## Happens-before -/

/-- Sequenced-before: two steps of one thread, in program order. -/
def sequencedBefore (tr : List Event) (i j : Nat) : Prop :=
  i < j ∧ ∃ e1 e2, tr[i]? = some e1 ∧ tr[j]? = some e2 ∧ e1.tid = e2.tid

/-- Synchronizes-with: an unlock of `mtx` and a later lock of `mtx`.  The
member `instance` is a plain pointer, so its reads and writes synchronize
with nothing. -/
def synchronizesWith (tr : List Event) (i j : Nat) : Prop :=
  i < j ∧ ∃ e1 e2, tr[i]? = some e1 ∧ tr[j]? = some e2 ∧
    e1.act = .unlockMtx ∧ e2.act = .lockMtx

/-- Happens-before: the transitive closure of sequenced-before and
synchronizes-with. -/
inductive HappensBefore (tr : List Event) : Nat → Nat → Prop where
  | sb (i j : Nat) : sequencedBefore tr i j → HappensBefore tr i j
  | sw (i j : Nat) : synchronizesWith tr i j → HappensBefore tr i j
  | trans (i j k : Nat) : HappensBefore tr i j → HappensBefore tr j k → HappensBefore tr i k


/-! ## The facts that hold in every interleaving -/

/-- The positions at which a thread holds `mtx`. -/
def holdsLock : Pc → Bool
  | .check2 => true
  | .construct => true
  | .publish _ => true
  | .release => true
  | .readLocked => true
  | .releaseAfter _ => true
  | _ => false

/-- What a thread at a position may rely on about the shared statics. -/
def localOk (w : World) : Pc → Prop
  | .construct => w.instancePtr = none ∧ w.ctorCalls = 0
  | .publish _ => w.instancePtr = none ∧ w.ctorCalls = 1
  | .release => w.instancePtr ≠ none
  | .readResult => w.instancePtr ≠ none
  | .readLocked => w.instancePtr ≠ none
  | .releaseAfter h => h = w.instancePtr ∧ w.instancePtr ≠ none
  | .done h => h = w.instancePtr ∧ w.instancePtr ≠ none
  | _ => True

/-- The invariant of the interleavings; `owner` is the thread that holds
`mtx`, if any. -/
structure ConcInv (s : Sys) (owner : Option Nat) : Prop where
  locked : s.world.mtxLocked = owner.isSome
  ownerValid : ∀ t, owner = some t → ∃ pc, s.threads[t]? = some pc
  holds : ∀ (t : Nat) (pc : Pc), s.threads[t]? = some pc →
    (holdsLock pc = true ↔ owner = some t)
  loc : ∀ (t : Nat) (pc : Pc), s.threads[t]? = some pc → localOk s.world pc
  count : (s.world.instancePtr = none ∧ s.world.ctorCalls = 0) ∨
    (s.world.ctorCalls = 1 ∧ (s.world.instancePtr ≠ none ∨
      ∃ (t : Nat) (a : Nat), s.threads[t]? = some (.publish a)))


/-- The positions the `getInstance` of a file passes through. -/
def validPc : Guarded → Pc → Bool
  | .mutexGuarded, .check1 => false
  | .mutexGuarded, .release => false
  | .mutexGuarded, .readResult => false
  | .doubleChecked, .readLocked => false
  | .doubleChecked, .releaseAfter _ => false
  | _, _ => true

/-- An upper bound on the steps a thread at a position still takes. -/
def rank : Pc → Nat
  | .check1 => 7
  | .acquire => 6
  | .check2 => 5
  | .construct => 4
  | .publish _ => 3
  | .release => 2
  | .readLocked => 2
  | .readResult => 1
  | .releaseAfter _ => 1
  | .done _ => 0

/-- An upper bound on the steps the threads of a state still take. -/
def Sys.measure (s : Sys) : Nat := (s.threads.map rank).sum


/-- Thread `t` locks `mtx` in none of the steps `0 .. j` of the trace. -/
def noLockBy (tr : List Event) (t : Nat) (j : Nat) : Bool :=
  (tr.take (j + 1)).all (fun e => !(e.tid = t && e.act = .lockMtx))


/-- The facts every single-threaded reachable state satisfies. -/
def SeqInv (v : Variant) (w : World) : Prop :=
  w.mtxLocked = false ∧ (v = .eager → w.instancePtr ≠ none)

/-! # Theorems

## One thread -/

theorem getInstance_of_set (v : Variant) (o : NewOutcome) (w : World) (a : Nat)
    (hfree : v = .mutexGuarded → w.mtxLocked = false) (hset : w.instancePtr = some a) :
    (getInstance v o w).1 = .returned (some a) ∧
    (getInstance v o w).2.instancePtr = some a ∧
    (getInstance v o w).2.mtxLocked = w.mtxLocked ∧
    (getInstance v o w).2.ctorCalls = w.ctorCalls ∧
    (getInstance v o w).2.out = w.out := by
  cases v <;>
    simp [getInstance, Eager.getInstance, LazyInit.getInstance, SingleInstance.getInstance,
      Mutex.getInstance, DoubleChecked.getInstance, lock, unlock, hset]
  simp [hfree, hset]

theorem getInstance_of_null_ok (v : Variant) (a : Nat) (w : World)
    (hv : v ≠ .eager) (hfree : w.mtxLocked = false) (hnull : w.instancePtr = none) :
    (getInstance v (.ok a) w).1 = .returned (some a) ∧
    (getInstance v (.ok a) w).2.instancePtr = some a ∧
    (getInstance v (.ok a) w).2.mtxLocked = false ∧
    (getInstance v (.ok a) w).2.ctorCalls = w.ctorCalls + 1 ∧
    (getInstance v (.ok a) w).2.out = w.out ++ (ctorMessage v).toList := by
  cases v <;>
    simp_all [getInstance, LazyInit.getInstance, SingleInstance.getInstance,
      Mutex.getInstance, DoubleChecked.getInstance, DoubleChecked.slowPath, lock, unlock,
      newObject]

theorem getInstance_of_null_throws (v : Variant) (w : World)
    (hv : v ≠ .eager) (hfree : w.mtxLocked = false) (hnull : w.instancePtr = none) :
    (getInstance v .throws w).1 = .threw ∧
    (getInstance v .throws w).2.instancePtr = none ∧
    (getInstance v .throws w).2.mtxLocked = false ∧
    (getInstance v .throws w).2.ctorCalls = w.ctorCalls + 1 ∧
    (getInstance v .throws w).2.out = w.out := by
  cases v <;>
    simp_all [getInstance, LazyInit.getInstance, SingleInstance.getInstance,
      Mutex.getInstance, DoubleChecked.getInstance, DoubleChecked.slowPath, lock, unlock,
      newObject]


theorem seqInv_init (v : Variant) (o : NewOutcome) (w : World)
    (h : staticInit v o = some w) : SeqInv v w := by
  cases v <;> cases o <;> simp [staticInit, newObject, World.empty] at h <;>
    subst h <;> simp [SeqInv, World.empty]

theorem seqInv_call (v : Variant) (o : NewOutcome) (w : World) (h : SeqInv v w) :
    SeqInv v (getInstance v o w).2 := by
  obtain ⟨hfree, hne⟩ := h
  cases hp : w.instancePtr with
  | some a =>
    obtain ⟨_, h2, h3, _, _⟩ := getInstance_of_set v o w a (fun _ => hfree) hp
    exact ⟨h3.trans hfree, fun _ => by rw [h2]; simp⟩
  | none =>
    have hv : v ≠ .eager := fun e => hne e hp
    cases o with
    | ok a =>
      obtain ⟨_, _, h3, _, _⟩ := getInstance_of_null_ok v a w hv hfree hp
      exact ⟨h3, fun e => absurd e hv⟩
    | throws =>
      obtain ⟨_, _, h3, _, _⟩ := getInstance_of_null_throws v w hv hfree hp
      exact ⟨h3, fun e => absurd e hv⟩

theorem seqInv_of_reachable (v : Variant) (w : World) (h : Reachable v w) : SeqInv v w := by
  induction h with
  | init o w h => exact seqInv_init v o w h
  | call o w _ ih => exact seqInv_call v o w ih

/-- Once `instance` is set, every later call returns it and changes nothing
that is observed. -/
theorem runCalls_of_set (v : Variant) (a : Nat) (os : List NewOutcome) :
    ∀ (w : World), w.mtxLocked = false → w.instancePtr = some a →
      (runCalls v os w).1 = List.replicate os.length (.returned (some a)) ∧
      (runCalls v os w).2.instancePtr = some a ∧
      (runCalls v os w).2.ctorCalls = w.ctorCalls ∧
      (runCalls v os w).2.out = w.out := by
  induction os with
  | nil => intro w _ hp; exact ⟨rfl, hp, rfl, rfl⟩
  | cons o os ih =>
    intro w hfree hp
    obtain ⟨h1, h2, h3, h4, h5⟩ := getInstance_of_set v o w a (fun _ => hfree) hp
    obtain ⟨k1, k2, k3, k4⟩ := ih (getInstance v o w).2 (h3.trans hfree) h2
    simp only [runCalls, List.length_cons, List.replicate_succ]
    exact ⟨by rw [h1, k1], k2, k3.trans h4, k4.trans h5⟩

theorem runCalls_handles (v : Variant) (os : List NewOutcome) :
    ∀ (w : World), SeqInv v w →
      ∃ p : Ptr, ∀ r ∈ (runCalls v os w).1, r = .threw ∨ r = .returned p := by
  induction os with
  | nil => intro w _; exact ⟨none, fun r hr => by simp [runCalls] at hr⟩
  | cons o os ih =>
    intro w hinv
    have hfree := hinv.1
    cases hp : w.instancePtr with
    | some a =>
      refine ⟨some a, fun r hr => Or.inr ?_⟩
      rw [(runCalls_of_set v a (o :: os) w hfree hp).1] at hr
      exact List.eq_of_mem_replicate hr
    | none =>
      have hv : v ≠ .eager := fun e => hinv.2 e hp
      cases o with
      | ok a =>
        obtain ⟨h1, h2, h3, _, _⟩ := getInstance_of_null_ok v a w hv hfree hp
        refine ⟨some a, fun r hr => Or.inr ?_⟩
        simp only [runCalls, List.mem_cons] at hr
        rcases hr with hr | hr
        · rw [hr, h1]
        · rw [(runCalls_of_set v a os _ h3 h2).1] at hr
          exact List.eq_of_mem_replicate hr
      | throws =>
        obtain ⟨h1, _, _, _, _⟩ := getInstance_of_null_throws v w hv hfree hp
        obtain ⟨p, hp1⟩ := ih _ (seqInv_call v .throws w hinv)
        refine ⟨p, fun r hr => ?_⟩
        simp only [runCalls, List.mem_cons] at hr
        rcases hr with hr | hr
        · exact Or.inl (hr.trans h1)
        · exact hp1 r hr

theorem runCalls_ok (v : Variant) (addrs : List Nat) :
    ∀ (w : World), SeqInv v w →
      ∃ a, (runCalls v (addrs.map .ok) w).1 =
        List.replicate addrs.length (.returned (some a)) := by
  intro w hinv
  cases addrs with
  | nil => exact ⟨0, rfl⟩
  | cons b bs =>
    have hfree := hinv.1
    cases hp : w.instancePtr with
    | some a =>
      refine ⟨a, ?_⟩
      have := (runCalls_of_set v a ((b :: bs).map .ok) w hfree hp).1
      simpa using this
    | none =>
      have hv : v ≠ .eager := fun e => hinv.2 e hp
      obtain ⟨h1, h2, h3, _, _⟩ := getInstance_of_null_ok v b w hv hfree hp
      refine ⟨b, ?_⟩
      have := (runCalls_of_set v b (bs.map .ok) _ h3 h2).1
      simp only [List.map_cons, runCalls, List.length_cons, List.replicate_succ]
      rw [h1, this]
      simp


/-- C1. From every state a single thread can reach, in every variant, let one
thread call `getInstance` `n` times, whatever `new` does in each call.  All
handles that the calls return are one and the same pointer; when `new` never
throws, each of the `n` calls returns, and returns that one non-null handle.
In `main` of `Lazy Intialization.cpp` the comparison `logger1 == logger2`
therefore takes the branch that prints `true`. -/
theorem sequential_single_instance (v : Variant) (w : World) (hr : Reachable v w) :
    (∀ (os : List NewOutcome) (h1 h2 : Ptr),
      .returned h1 ∈ (runCalls v os w).1 → .returned h2 ∈ (runCalls v os w).1 → h1 = h2) ∧
    (∀ addrs : List Nat, ∃ a, (runCalls v (addrs.map .ok) w).1 =
      List.replicate addrs.length (.returned (some a))) ∧
    (∀ (a1 a2 : Nat), LazyInit.main (.ok a1) (.ok a2) =
      some { instancePtr := some a1, mtxLocked := false, ctorCalls := 1, lockAcqs := 0,
             lockRels := 0,
             out := ["Logger instance created\n", "LOG initiated\n", "LOG initiated\n",
                     "true"] }) ∧
    (∀ (o1 o2 : NewOutcome) (w1 : World), LazyInit.main o1 o2 = some w1 →
      w1.out.getLast? = some "true") := by
  have hinv := seqInv_of_reachable v w hr
  refine ⟨?_, fun addrs => runCalls_ok v addrs w hinv, ?_, ?_⟩
  · intro os h1 h2 m1 m2
    obtain ⟨p, hp⟩ := runCalls_handles v os w hinv
    rcases hp _ m1 with e1 | e1
    · cases e1
    · rcases hp _ m2 with e2 | e2
      · cases e2
      · cases e1; cases e2; rfl
  · intro a1 a2
    simp [LazyInit.main, LazyInit.getInstance, LazyInit.display, newObject, World.empty,
      ctorMessage]
  · intro o1 o2 w1 h
    cases o1 <;> cases o2 <;>
      simp [LazyInit.main, LazyInit.getInstance, LazyInit.display, newObject,
        World.empty] at h <;>
      subst h <;> simp

/-- C1, at a concrete input: the double-checked variant after one call whose
`new` threw. -/
theorem sequential_single_instance_witness :
    Reachable .doubleChecked (getInstance .doubleChecked .throws World.empty).2 ∧
    (runCalls .doubleChecked [.throws, .ok 7, .ok 8, .throws]
      (getInstance .doubleChecked .throws World.empty).2).1 =
      [.threw, .returned (some 7), .returned (some 7), .returned (some 7)] ∧
    ∀ (h1 h2 : Ptr),
      .returned h1 ∈ (runCalls .doubleChecked [.throws, .ok 7, .ok 8, .throws]
        (getInstance .doubleChecked .throws World.empty).2).1 →
      .returned h2 ∈ (runCalls .doubleChecked [.throws, .ok 7, .ok 8, .throws]
        (getInstance .doubleChecked .throws World.empty).2).1 → h1 = h2 :=
  ⟨Reachable.call _ _ (Reachable.init .throws _ rfl), rfl,
   (sequential_single_instance .doubleChecked _
      (Reachable.call .throws _ (Reachable.init .throws _ rfl))).1
      [.throws, .ok 7, .ok 8, .throws]⟩


/-- C2. In each lazy variant, from the state at the start of `main`
(`instance` null, no constructor run), let one thread make `n ≥ 1` calls of
`getInstance` whose `new` does not throw.  The first call runs the
constructor, once, and writes its creation line (the constructor of
`mutex.cpp` writes none); after all `n` calls the constructor has still run
exactly once and the line has been written exactly once. -/
theorem construction_count (v : Variant) (hv : v ≠ .eager) (o0 : NewOutcome) (w0 : World)
    (hinit : staticInit v o0 = some w0) (a : Nat) (rest : List Nat) :
    w0.instancePtr = none ∧ w0.ctorCalls = 0 ∧ w0.out = [] ∧
    (getInstance v (.ok a) w0).2.ctorCalls = 1 ∧
    (getInstance v (.ok a) w0).2.out = (ctorMessage v).toList ∧
    (runCalls v ((a :: rest).map .ok) w0).2.ctorCalls = 1 ∧
    (runCalls v ((a :: rest).map .ok) w0).2.out = (ctorMessage v).toList ∧
    (runCalls v ((a :: rest).map .ok) w0).1 =
      List.replicate (rest.length + 1) (.returned (some a)) := by
  have hw0 : w0 = World.empty := by
    cases v <;> simp [staticInit] at hinit <;> first | exact hinit.symm | exact absurd rfl hv
  subst hw0
  obtain ⟨h1, h2, h3, h4, h5⟩ :=
    getInstance_of_null_ok v a World.empty hv rfl rfl
  obtain ⟨k1, _, k3, k4⟩ := runCalls_of_set v a (rest.map .ok) _ h3 h2
  have h4a : (getInstance v (.ok a) World.empty).2.ctorCalls = 1 := by
    rw [h4]; rfl
  have h5a : (getInstance v (.ok a) World.empty).2.out = (ctorMessage v).toList := by
    rw [h5]; simp [World.empty]
  refine ⟨rfl, rfl, rfl, h4a, h5a, ?_, ?_, ?_⟩
  · simp only [List.map_cons, runCalls]
    rw [k3, h4a]
  · simp only [List.map_cons, runCalls]
    rw [k4, h5a]
  · simp only [List.map_cons, runCalls, List.replicate_succ]
    rw [h1, k1]
    simp

/-- C2, at a concrete input: the two calls of `main` in
`Lazy Intialization.cpp`. -/
theorem construction_count_witness :
    Variant.lazyInit ≠ .eager ∧ staticInit .lazyInit .throws = some World.empty ∧
    (runCalls .lazyInit ([5, 6].map .ok) World.empty).2.ctorCalls = 1 ∧
    (runCalls .lazyInit ([5, 6].map .ok) World.empty).2.out = ["Logger instance created\n"] :=
  ⟨by decide, rfl,
   (construction_count .lazyInit (by decide) .throws World.empty rfl 5 [6]).2.2.2.2.2.1,
   (construction_count .lazyInit (by decide) .throws World.empty rfl 5 [6]).2.2.2.2.2.2.1⟩

/-- C4. In `mutex.cpp` and in `Double-checked Locking.cpp`, a call of
`getInstance` that finds `instance` null and the guard free and whose `new`
throws passes the exception to its caller and leaves the holder as it was:
`instance` null, the guard free.  The next call, whose `new` yields an object,
returns its non-null address and has stored it in `instance`. -/
theorem retry_after_failure (g : Guarded) (w : World) (hnull : w.instancePtr = none)
    (hfree : w.mtxLocked = false) (a : Nat) :
    (getInstance g.toVariant .throws w).1 = .threw ∧
    (getInstance g.toVariant .throws w).2.holder = w.holder ∧
    (getInstance g.toVariant .throws w).2.instancePtr = none ∧
    (getInstance g.toVariant (.ok a) (getInstance g.toVariant .throws w).2).1 =
      .returned (some a) ∧
    (getInstance g.toVariant (.ok a) (getInstance g.toVariant .throws w).2).2.instancePtr =
      some a := by
  have hv : g.toVariant ≠ .eager := by cases g <;> simp [Guarded.toVariant]
  obtain ⟨h1, h2, h3, _, _⟩ := getInstance_of_null_throws g.toVariant w hv hfree hnull
  obtain ⟨k1, k2, _, _, _⟩ := getInstance_of_null_ok g.toVariant a _ hv h3 h2
  refine ⟨h1, ?_, h2, k1, k2⟩
  simp only [World.holder, h2, h3, hnull, hfree]

/-- C4, at a concrete input: the first call of the program fails. -/
theorem retry_after_failure_witness :
    World.empty.instancePtr = none ∧ World.empty.mtxLocked = false ∧
    (getInstance .doubleChecked .throws World.empty).1 = .threw ∧
    (getInstance .doubleChecked (.ok 9)
      (getInstance .doubleChecked .throws World.empty).2).1 = .returned (some 9) :=
  ⟨rfl, rfl, (retry_after_failure .doubleChecked World.empty rfl rfl 9).1,
   (retry_after_failure .doubleChecked World.empty rfl rfl 9).2.2.2.1⟩

/-- C5. In every variant, in every state in which `instance` is not null
(for `mutex.cpp`: and the guard is free), a call of `getInstance` returns the
stored pointer, leaves `instance` as it is, and does not invoke the
construction logic: the count of constructor runs and the output are
unchanged, whatever `new` would have done - also when it would have thrown. -/
theorem ready_is_terminal (v : Variant) (w : World) (hset : w.instancePtr ≠ none)
    (hfree : v = .mutexGuarded → w.mtxLocked = false) (o : NewOutcome) :
    (getInstance v o w).1 = .returned w.instancePtr ∧
    (getInstance v o w).2.instancePtr = w.instancePtr ∧
    (getInstance v o w).2.ctorCalls = w.ctorCalls ∧
    (getInstance v o w).2.out = w.out ∧
    getInstance v o w = getInstance v .throws w := by
  cases hp : w.instancePtr with
  | none => exact absurd hp hset
  | some a =>
    obtain ⟨h1, h2, _, h4, h5⟩ := getInstance_of_set v o w a hfree hp
    refine ⟨h1, h2, h4, h5, ?_⟩
    cases v <;>
      simp [getInstance, Eager.getInstance, LazyInit.getInstance, SingleInstance.getInstance,
        Mutex.getInstance, DoubleChecked.getInstance, lock, unlock, hp]
    simp [hfree, hp]

/-- C5, at a concrete input: the state after a successful call, and a
constructor that now throws. -/
theorem ready_is_terminal_witness :
    (getInstance .doubleChecked (.ok 4) World.empty).2.instancePtr ≠ none ∧
    (getInstance .doubleChecked .throws (getInstance .doubleChecked (.ok 4) World.empty).2).1 =
      .returned (some 4) :=
  ⟨by decide,
   (ready_is_terminal .doubleChecked (getInstance .doubleChecked (.ok 4) World.empty).2
      (by decide) (fun h => by cases h) .throws).1⟩

/-- C6. In every variant and every state a single thread can reach, a call
of `getInstance` does not wait on the guard; it returns unless its `new`
throws; and when it returns, the handle is not null and `instance` holds that
same handle afterwards. -/
theorem never_null (v : Variant) (w : World) (hr : Reachable v w) (o : NewOutcome) :
    (getInstance v o w).1 ≠ .blocked ∧
    (o ≠ .throws → ∃ a, (getInstance v o w).1 = .returned (some a)) ∧
    (∀ h : Ptr, (getInstance v o w).1 = .returned h →
      h ≠ none ∧ (getInstance v o w).2.instancePtr = h) := by
  have hinv := seqInv_of_reachable v w hr
  have hfree := hinv.1
  cases hp : w.instancePtr with
  | some a =>
    obtain ⟨h1, h2, _, _, _⟩ := getInstance_of_set v o w a (fun _ => hfree) hp
    refine ⟨by rw [h1]; simp, fun _ => ⟨a, h1⟩, ?_⟩
    intro h hh
    rw [h1] at hh
    cases hh
    exact ⟨by simp, h2⟩
  | none =>
    have hv : v ≠ .eager := fun e => hinv.2 e hp
    cases o with
    | ok a =>
      obtain ⟨h1, h2, _, _, _⟩ := getInstance_of_null_ok v a w hv hfree hp
      refine ⟨by rw [h1]; simp, fun _ => ⟨a, h1⟩, ?_⟩
      intro h hh
      rw [h1] at hh
      cases hh
      exact ⟨by simp, h2⟩
    | throws =>
      obtain ⟨h1, _, _, _, _⟩ := getInstance_of_null_throws v w hv hfree hp
      refine ⟨by rw [h1]; simp, fun hne => absurd rfl hne, ?_⟩
      intro h hh
      rw [h1] at hh
      cases hh

/-- C6, at a concrete input: the eager variant at the start of `main`. -/
theorem never_null_witness :
    Reachable .eager
      { instancePtr := some 3, mtxLocked := false, ctorCalls := 1, lockAcqs := 0,
        lockRels := 0, out := ["Singleton Instance Created\n"] } ∧
    (getInstance .eager .throws
      { instancePtr := some 3, mtxLocked := false, ctorCalls := 1, lockAcqs := 0,
        lockRels := 0, out := ["Singleton Instance Created\n"] }).1 ≠ .blocked :=
  ⟨Reachable.init (.ok 3) _ rfl,
   (never_null .eager _ (Reachable.init (.ok 3) _ rfl) .throws).1⟩

/-- C8. In `mutex.cpp` and in `Double-checked Locking.cpp`, a call of
`getInstance` that starts with the guard free ends (it does not wait), and
the guard is free again when it ends, with as many unlocks as locks during
the call - whatever `instance` holds and whatever `new` does: on the fast
path, when construction succeeds, and when it throws.  The same holds for
the locked block of `Double-checked Locking.cpp` entered with `instance`
already set, the path on which the second check finds the instance that
another thread published after the first check. -/
theorem guard_released_on_every_path (g : Guarded) (o : NewOutcome) (w : World)
    (hfree : w.mtxLocked = false) :
    (getInstance g.toVariant o w).1 ≠ .blocked ∧
    (getInstance g.toVariant o w).2.mtxLocked = false ∧
    (getInstance g.toVariant o w).2.lockAcqs + w.lockRels =
      (getInstance g.toVariant o w).2.lockRels + w.lockAcqs ∧
    (DoubleChecked.slowPath o w).1 ≠ .blocked ∧
    (DoubleChecked.slowPath o w).2.mtxLocked = false ∧
    (DoubleChecked.slowPath o w).2.lockAcqs = w.lockAcqs + 1 ∧
    (DoubleChecked.slowPath o w).2.lockRels = w.lockRels + 1 := by
  cases hp : w.instancePtr <;> cases o <;> cases g <;>
    simp [Guarded.toVariant, getInstance, Mutex.getInstance, DoubleChecked.getInstance,
      DoubleChecked.slowPath, lock, unlock, newObject, hfree, hp] <;> omega

/-- C8, at a concrete input: construction fails under the lock. -/
theorem guard_released_on_every_path_witness :
    World.empty.mtxLocked = false ∧
    (getInstance .mutexGuarded .throws World.empty).1 = .threw ∧
    (getInstance .mutexGuarded .throws World.empty).2.lockAcqs = 1 ∧
    (getInstance (Guarded.toVariant .mutexGuarded) .throws World.empty).2.mtxLocked = false :=
  ⟨rfl, rfl, rfl,
   (guard_released_on_every_path .mutexGuarded .throws World.empty rfl).2.1⟩

/-- C9. Let a call of `getInstance` start with the guard free.  In
`Double-checked Locking.cpp` the call ends, and it has locked the guard once
when `instance` was null at the first check and not at all otherwise; with
`instance` set it returns the stored pointer and leaves the whole state as it
was, the guard untouched, and it does so whether the guard is free or held.
In `mutex.cpp` the call ends and has locked the guard exactly once, whatever
`instance` holds. -/
theorem fast_path_takes_no_lock (o : NewOutcome) (w : World)
    (hfree : w.mtxLocked = false) :
    (DoubleChecked.getInstance o w).1 ≠ .blocked ∧
    ((DoubleChecked.getInstance o w).2.lockAcqs = w.lockAcqs + 1 ↔
      w.instancePtr = none) ∧
    ((DoubleChecked.getInstance o w).2.lockAcqs = w.lockAcqs ↔ w.instancePtr ≠ none) ∧
    (DoubleChecked.getInstance o w).2.lockAcqs =
      w.lockAcqs + (if w.instancePtr = none then 1 else 0) ∧
    (w.instancePtr ≠ none → ∀ b : Bool,
      DoubleChecked.getInstance o { w with mtxLocked := b } =
        (.returned w.instancePtr, { w with mtxLocked := b })) ∧
    (Mutex.getInstance o w).1 ≠ .blocked ∧
    (Mutex.getInstance o w).2.lockAcqs = w.lockAcqs + 1 := by
  cases hp : w.instancePtr <;> cases o <;>
    simp [Mutex.getInstance, DoubleChecked.getInstance, DoubleChecked.slowPath, lock,
      unlock, newObject, hp, hfree]

/-- C9, at a concrete input: the first call of the program, which finds
`instance` null and constructs under the lock. -/
theorem fast_path_takes_no_lock_witness :
    World.empty.mtxLocked = false ∧
    (DoubleChecked.getInstance (.ok 2) World.empty).1 = .returned (some 2) ∧
    (DoubleChecked.getInstance (.ok 2) World.empty).2.lockAcqs =
      0 + (if World.empty.instancePtr = none then 1 else 0) ∧
    (Mutex.getInstance (.ok 2) World.empty).2.lockAcqs = 0 + 1 :=
  ⟨rfl, rfl,
   (fast_path_takes_no_lock (.ok 2) World.empty rfl).2.2.2.1,
   (fast_path_takes_no_lock (.ok 2) World.empty rfl).2.2.2.2.2.2⟩

/-- C10. With the guard free at entry, the `getInstance` of
`Lazy Intialization.cpp`, of `Single Instance.cpp`, of `mutex.cpp` and of
`Double-checked Locking.cpp` agree, for every value of `instance` and
whatever `new` does: any two of them end the same way with the same handle,
leave the same `instance`, invoke the construction logic the same number of
times, and leave the guard free. -/
theorem lazy_variants_sequentially_equal (v1 v2 : Variant) (h1 : v1 ≠ .eager)
    (h2 : v2 ≠ .eager) (o : NewOutcome) (w : World) (hfree : w.mtxLocked = false) :
    (getInstance v1 o w).1 = (getInstance v2 o w).1 ∧
    (getInstance v1 o w).2.instancePtr = (getInstance v2 o w).2.instancePtr ∧
    (getInstance v1 o w).2.ctorCalls = (getInstance v2 o w).2.ctorCalls ∧
    (getInstance v1 o w).2.mtxLocked = (getInstance v2 o w).2.mtxLocked := by
  cases hp : w.instancePtr with
  | some a =>
    obtain ⟨a1, a2, a3, a4, _⟩ := getInstance_of_set v1 o w a (fun _ => hfree) hp
    obtain ⟨b1, b2, b3, b4, _⟩ := getInstance_of_set v2 o w a (fun _ => hfree) hp
    exact ⟨a1.trans b1.symm, a2.trans b2.symm, a4.trans b4.symm, a3.trans b3.symm⟩
  | none =>
    cases o with
    | ok a =>
      obtain ⟨a1, a2, a3, a4, _⟩ := getInstance_of_null_ok v1 a w h1 hfree hp
      obtain ⟨b1, b2, b3, b4, _⟩ := getInstance_of_null_ok v2 a w h2 hfree hp
      exact ⟨a1.trans b1.symm, a2.trans b2.symm, a4.trans b4.symm, a3.trans b3.symm⟩
    | throws =>
      obtain ⟨a1, a2, a3, a4, _⟩ := getInstance_of_null_throws v1 w h1 hfree hp
      obtain ⟨b1, b2, b3, b4, _⟩ := getInstance_of_null_throws v2 w h2 hfree hp
      exact ⟨a1.trans b1.symm, a2.trans b2.symm, a4.trans b4.symm, a3.trans b3.symm⟩

/-- C10, at a concrete input: the unguarded and the double-checked variant on
a first call whose `new` throws. -/
theorem lazy_variants_sequentially_equal_witness :
    Variant.lazyInit ≠ .eager ∧ Variant.doubleChecked ≠ .eager ∧
    World.empty.mtxLocked = false ∧
    (getInstance .lazyInit .throws World.empty).1 = .threw ∧
    (getInstance .lazyInit .throws World.empty).1 =
      (getInstance .doubleChecked .throws World.empty).1 :=
  ⟨by decide, by decide, rfl, rfl,
   (lazy_variants_sequentially_equal .lazyInit .doubleChecked (by decide) (by decide)
      .throws World.empty rfl).1⟩

/-! ## Several threads -/

theorem getElem?_set_cases (l : List Pc) (t t' : Nat) (x pc' : Pc)
    (h : (l.set t x)[t']? = some pc') :
    (t' = t ∧ pc' = x) ∨ (t' ≠ t ∧ l[t']? = some pc') := by
  rw [List.getElem?_set] at h
  by_cases htt : t = t'
  · subst htt
    left
    split at h
    · split at h
      · simp_all
      · simp at h
    · simp_all
  · right
    simp [htt] at h
    exact ⟨fun e => htt e.symm, h⟩

theorem getElem?_set_self_of_some (l : List Pc) (t : Nat) (x pc : Pc)
    (h : l[t]? = some pc) : (l.set t x)[t]? = some x := by
  have hlt : t < l.length := by
    rcases Nat.lt_or_ge t l.length with h1 | h1
    · exact h1
    · rw [List.getElem?_eq_none h1] at h
      cases h
  simp [List.getElem?_set, hlt]

theorem concInv_init (g : Guarded) (n : Nat) : ConcInv (initSys g n) none := by
  refine ⟨rfl, ?_, ?_, ?_, ?_⟩
  · intro t h; cases h
  · intro t pc h
    simp only [initSys, List.getElem?_replicate] at h
    split at h
    · cases h; cases g <;> simp [entry, holdsLock]
    · cases h
  · intro t pc h
    simp only [initSys, List.getElem?_replicate] at h
    split at h
    · cases h; cases g <;> simp [entry, localOk]
    · cases h
  · left; exact ⟨rfl, rfl⟩


theorem localOk_congr (w w1 : World) (pc : Pc) (hi : w1.instancePtr = w.instancePtr)
    (hc : w1.ctorCalls = w.ctorCalls) (h : localOk w pc) : localOk w1 pc := by
  cases pc <;> simp_all [localOk]

theorem concInv_update (s : Sys) (owner : Option Nat) (t : Nat) (pc : Pc)
    (hinv : ConcInv s owner) (hpc : s.threads[t]? = some pc)
    (w1 : World) (pc1 : Pc) (owner1 : Option Nat) (tr1 : List Event)
    (h1 : w1.mtxLocked = owner1.isSome)
    (h2 : holdsLock pc1 = true ↔ owner1 = some t)
    (h3 : owner1 = owner ∨ (owner = some t ∧ owner1 = none) ∨ (owner = none ∧ owner1 = some t))
    (h4 : localOk w1 pc1)
    (h5 : ∀ (u : Nat) (q : Pc), u ≠ t → s.threads[u]? = some q → localOk w1 q)
    (h6 : (w1.instancePtr = none ∧ w1.ctorCalls = 0) ∨
      (w1.ctorCalls = 1 ∧ (w1.instancePtr ≠ none ∨
        ∃ (u : Nat) (a : Nat), (s.threads.set t pc1)[u]? = some (.publish a)))) :
    ConcInv { world := w1, threads := s.threads.set t pc1, trace := tr1 } owner1 := by
  have hself := getElem?_set_self_of_some s.threads t pc1 pc hpc
  refine ⟨h1, ?_, ?_, ?_, h6⟩
  · intro u hu
    by_cases hut : u = t
    · subst hut; exact ⟨pc1, hself⟩
    · have hne : t ≠ u := fun e => hut e.symm
      simp only [List.getElem?_set_ne hne]
      rcases h3 with h3 | ⟨_, h3⟩ | ⟨_, h3⟩
      · exact hinv.ownerValid u (h3 ▸ hu)
      · rw [h3] at hu; cases hu
      · rw [h3] at hu; cases hu; exact absurd rfl hut
  · intro u q hq
    rcases getElem?_set_cases _ _ _ _ _ hq with ⟨rfl, rfl⟩ | ⟨hne, hold⟩
    · exact h2
    · have ho := hinv.holds u q hold
      rcases h3 with h3 | ⟨h3a, h3⟩ | ⟨h3a, h3⟩
      · rw [h3]; exact ho
      · rw [h3a] at ho
        rw [h3, ho]
        constructor
        · intro e; cases e; exact absurd rfl hne
        · intro e; cases e
      · rw [h3a] at ho
        rw [h3, ho]
        constructor
        · intro e; cases e
        · intro e; cases e; exact absurd rfl hne
  · intro u q hq
    rcases getElem?_set_cases _ _ _ _ _ hq with ⟨rfl, rfl⟩ | ⟨hne, hold⟩
    · exact h4
    · exact h5 u q hne hold

/-- Two threads that both hold the lock are one thread. -/
theorem holder_unique (s : Sys) (owner : Option Nat) (hinv : ConcInv s owner)
    (t u : Nat) (p q : Pc) (hp : s.threads[t]? = some p) (hq : s.threads[u]? = some q)
    (hlp : holdsLock p = true) (hlq : holdsLock q = true) : u = t := by
  have h1 := (hinv.holds t p hp).1 hlp
  have h2 := (hinv.holds u q hq).1 hlq
  rw [h1] at h2
  cases h2
  rfl

theorem count_keep (s : Sys) (owner : Option Nat) (t : Nat) (pc pc1 : Pc)
    (hinv : ConcInv s owner) (hpc : s.threads[t]? = some pc)
    (hnp : ∀ a, pc ≠ .publish a)
    (w1 : World) (hi : w1.instancePtr = s.world.instancePtr)
    (hc : w1.ctorCalls = s.world.ctorCalls) :
    (w1.instancePtr = none ∧ w1.ctorCalls = 0) ∨
      (w1.ctorCalls = 1 ∧ (w1.instancePtr ≠ none ∨
        ∃ (u : Nat) (a : Nat), (s.threads.set t pc1)[u]? = some (.publish a))) := by
  rw [hi, hc]
  rcases hinv.count with h | ⟨h1, h2 | ⟨u, a, hu⟩⟩
  · exact Or.inl h
  · exact Or.inr ⟨h1, Or.inl h2⟩
  · refine Or.inr ⟨h1, Or.inr ⟨u, a, ?_⟩⟩
    have hne : t ≠ u := by
      intro e
      subst e
      rw [hpc] at hu
      cases hu
      exact hnp a rfl
    rw [List.getElem?_set_ne hne]
    exact hu


theorem step_local (s : Sys) (owner : Option Nat) (t : Nat) (pc pc1 : Pc)
    (hinv : ConcInv s owner) (hpc : s.threads[t]? = some pc)
    (hnp : ∀ a, pc ≠ .publish a) (hh : holdsLock pc1 = holdsLock pc)
    (hl : localOk s.world pc1) (tr1 : List Event) :
    ConcInv { world := s.world, threads := s.threads.set t pc1, trace := tr1 } owner := by
  refine concInv_update s owner t pc hinv hpc s.world pc1 owner tr1 hinv.locked ?_
    (Or.inl rfl) hl ?_ (count_keep s owner t pc pc1 hinv hpc hnp s.world rfl rfl)
  · rw [hh]; exact hinv.holds t pc hpc
  · intro u q _ hq; exact hinv.loc u q hq

theorem step_acquire (s : Sys) (owner : Option Nat) (t : Nat)
    (hinv : ConcInv s owner) (hpc : s.threads[t]? = some .acquire)
    (w1 : World) (hw : lock s.world = some w1) (tr1 : List Event) :
    ConcInv { world := w1, threads := s.threads.set t .check2, trace := tr1 } (some t) := by
  have hfree : s.world.mtxLocked = false := by
    cases hm : s.world.mtxLocked
    · rfl
    · simp [lock, hm] at hw
  have hw1 : w1 = { s.world with mtxLocked := true, lockAcqs := s.world.lockAcqs + 1 } := by
    simp [lock, hfree] at hw
    exact hw.symm
  have hown : owner = none := by
    have := hinv.locked
    rw [hfree] at this
    cases owner
    · rfl
    · simp at this
  subst hw1
  refine concInv_update s owner t .acquire hinv hpc _ .check2 (some t) tr1 rfl ?_
    (Or.inr (Or.inr ⟨hown, rfl⟩)) trivial ?_
    (count_keep s owner t .acquire .check2 hinv hpc (fun a h => by cases h) _ rfl rfl)
  · simp [holdsLock]
  · intro u q _ hq
    exact localOk_congr s.world _ q rfl rfl (hinv.loc u q hq)

theorem step_construct (s : Sys) (owner : Option Nat) (t : Nat) (a : Nat)
    (hinv : ConcInv s owner) (hpc : s.threads[t]? = some .construct)
    (w1 : World) (hi : w1.instancePtr = s.world.instancePtr)
    (hc : w1.ctorCalls = s.world.ctorCalls + 1)
    (hm : w1.mtxLocked = s.world.mtxLocked) (tr1 : List Event) :
    ConcInv { world := w1, threads := s.threads.set t (.publish a), trace := tr1 } owner := by
  have hL : s.world.instancePtr = none ∧ s.world.ctorCalls = 0 := hinv.loc t _ hpc
  have hH := hinv.holds t _ hpc
  refine concInv_update s owner t .construct hinv hpc w1 (.publish a) owner tr1
    (hm ▸ hinv.locked) ?_ (Or.inl rfl) ?_ ?_ ?_
  · simpa [holdsLock] using hH
  · exact ⟨hi ▸ hL.1, by rw [hc, hL.2]⟩
  · intro u q hne hq
    have hq1 := hinv.loc u q hq
    have hq2 := hinv.holds u q hq
    have hu : holdsLock q = true → False := fun hl =>
      hne (holder_unique s owner hinv t u .construct q hpc hq rfl hl)
    cases q <;> simp_all [localOk, holdsLock]
  · refine Or.inr ⟨by rw [hc, hL.2], Or.inr ⟨t, a, ?_⟩⟩
    exact getElem?_set_self_of_some s.threads t _ _ hpc

theorem step_publish (s : Sys) (owner : Option Nat) (t : Nat) (a : Nat) (pc1 : Pc)
    (hinv : ConcInv s owner) (hpc : s.threads[t]? = some (.publish a))
    (hp : pc1 = .release ∨ pc1 = .readLocked)
    (w1 : World) (hi : w1.instancePtr = some a)
    (hc : w1.ctorCalls = s.world.ctorCalls)
    (hm : w1.mtxLocked = s.world.mtxLocked) (tr1 : List Event) :
    ConcInv { world := w1, threads := s.threads.set t pc1, trace := tr1 } owner := by
  have hL : s.world.instancePtr = none ∧ s.world.ctorCalls = 1 := hinv.loc t _ hpc
  have hH := hinv.holds t _ hpc
  refine concInv_update s owner t (.publish a) hinv hpc w1 pc1 owner tr1
    (hm ▸ hinv.locked) ?_ (Or.inl rfl) ?_ ?_ ?_
  · rcases hp with rfl | rfl <;> simpa [holdsLock] using hH
  · rcases hp with rfl | rfl <;> simp [localOk, hi]
  · intro u q hne hq
    have hq1 := hinv.loc u q hq
    have hu : holdsLock q = true → False := fun hl =>
      hne (holder_unique s owner hinv t u (.publish a) q hpc hq rfl hl)
    cases q <;> simp_all [localOk, holdsLock]
  · exact Or.inr ⟨by rw [hc, hL.2], Or.inl (by simp [hi])⟩

theorem step_unlock (s : Sys) (owner : Option Nat) (t : Nat) (pc pc1 : Pc)
    (hinv : ConcInv s owner) (hpc : s.threads[t]? = some pc)
    (hnp : ∀ a, pc ≠ .publish a) (hh : holdsLock pc = true) (hh1 : holdsLock pc1 = false)
    (hl : localOk s.world pc1) (tr1 : List Event) :
    ConcInv { world := unlock s.world, threads := s.threads.set t pc1, trace := tr1 }
      none := by
  have hown := (hinv.holds t pc hpc).1 hh
  refine concInv_update s owner t pc hinv hpc (unlock s.world) pc1 none tr1 rfl ?_
    (Or.inr (Or.inl ⟨hown, rfl⟩)) (localOk_congr s.world _ pc1 rfl rfl hl) ?_
    (count_keep s owner t pc pc1 hinv hpc hnp _ rfl rfl)
  · simp [hh1]
  · intro u q _ hq
    exact localOk_congr s.world _ q rfl rfl (hinv.loc u q hq)

/-- After the second check found `instance` null, no construction has run. -/
theorem check2_null_fresh (s : Sys) (owner : Option Nat) (t : Nat)
    (hinv : ConcInv s owner) (hpc : s.threads[t]? = some .check2)
    (hnull : s.world.instancePtr = none) : s.world.ctorCalls = 0 := by
  rcases hinv.count with h | ⟨_, h2 | ⟨u, a, hu⟩⟩
  · exact h.2
  · exact absurd hnull h2
  · have := holder_unique s owner hinv t u .check2 (.publish a) hpc hu rfl rfl
    subst this
    rw [hpc] at hu
    cases hu


theorem concInv_step (g : Guarded) (addr : Nat → Nat) (s s1 : Sys) (t : Nat)
    (owner : Option Nat) (hinv : ConcInv s owner) (hstep : sysStep g addr s t = some s1) :
    ∃ owner1, ConcInv s1 owner1 := by
  unfold sysStep at hstep
  cases hpc : s.threads[t]? with
  | none => simp [hpc] at hstep
  | some pc =>
    simp only [hpc] at hstep
    have hL := hinv.loc t pc hpc
    cases g <;> cases pc <;>
      simp only [threadStep, Mutex.threadStep, DoubleChecked.threadStep, newObject,
        Option.some.injEq, reduceCtorEq] at hstep
    -- mutex.cpp
    · -- acquire
      cases hw : lock s.world with
      | none => simp [hw] at hstep
      | some w1 =>
        simp only [hw, Option.some.injEq] at hstep
        subst hstep
        exact ⟨_, step_acquire s owner t hinv hpc w1 hw _⟩
    · -- check2
      subst hstep
      refine ⟨owner, step_local s owner t _ _ hinv hpc (fun a h => by cases h) ?_ ?_ _⟩
      · split <;> rfl
      · split
        · next hnull => exact ⟨hnull, check2_null_fresh s owner t hinv hpc hnull⟩
        · next hset => exact hset
    · -- construct
      subst hstep
      exact ⟨owner, step_construct s owner t _ hinv hpc _ (by rfl) (by rfl) (by rfl) _⟩
    · -- publish
      subst hstep
      exact ⟨owner, step_publish s owner t _ _ hinv hpc (Or.inr rfl) _ (by rfl) (by rfl)
        (by rfl) _⟩
    · -- readLocked
      subst hstep
      exact ⟨owner, step_local s owner t _ _ hinv hpc (fun a h => by cases h) (by rfl)
        (by exact ⟨rfl, hL⟩) _⟩
    · -- releaseAfter
      subst hstep
      exact ⟨none, step_unlock s owner t _ _ hinv hpc (fun a h => by cases h) (by rfl) (by rfl)
        (by exact hL) _⟩
    -- Double-checked Locking.cpp
    · -- check1
      subst hstep
      refine ⟨owner, step_local s owner t _ _ hinv hpc (fun a h => by cases h) ?_ ?_ _⟩
      · split <;> rfl
      · split
        · trivial
        · next hset => exact hset
    · -- acquire
      cases hw : lock s.world with
      | none => simp [hw] at hstep
      | some w1 =>
        simp only [hw, Option.some.injEq] at hstep
        subst hstep
        exact ⟨_, step_acquire s owner t hinv hpc w1 hw _⟩
    · -- check2
      subst hstep
      refine ⟨owner, step_local s owner t _ _ hinv hpc (fun a h => by cases h) ?_ ?_ _⟩
      · split <;> rfl
      · split
        · next hnull => exact ⟨hnull, check2_null_fresh s owner t hinv hpc hnull⟩
        · next hset => exact hset
    · -- construct
      subst hstep
      exact ⟨owner, step_construct s owner t _ hinv hpc _ (by rfl) (by rfl) (by rfl) _⟩
    · -- publish
      subst hstep
      exact ⟨owner, step_publish s owner t _ _ hinv hpc (Or.inl rfl) _ (by rfl) (by rfl)
        (by rfl) _⟩
    · -- release
      subst hstep
      exact ⟨none, step_unlock s owner t _ _ hinv hpc (fun a h => by cases h) (by rfl) (by rfl)
        (by exact hL) _⟩
    · -- readResult
      subst hstep
      exact ⟨owner, step_local s owner t _ _ hinv hpc (fun a h => by cases h) (by rfl)
        (by exact ⟨rfl, hL⟩) _⟩

theorem concInv_exec (g : Guarded) (addr : Nat → Nat) (sched : List Nat) :
    ∀ (s s1 : Sys) (owner : Option Nat), ConcInv s owner →
      exec g addr s sched = some s1 → ∃ owner1, ConcInv s1 owner1 := by
  induction sched with
  | nil =>
    intro s s1 owner hinv h
    simp only [exec, Option.some.injEq] at h
    subst h
    exact ⟨owner, hinv⟩
  | cons t ts ih =>
    intro s s1 owner hinv h
    simp only [exec] at h
    cases hs : sysStep g addr s t with
    | none => simp [hs] at h
    | some s2 =>
      simp only [hs] at h
      obtain ⟨owner2, hinv2⟩ := concInv_step g addr s s2 t owner hinv hs
      exact ih s2 s1 owner2 hinv2 h


theorem threadStep_rank (g : Guarded) (a : Nat) (pc pc1 : Pc) (w w1 : World) (act : Action)
    (h : threadStep g a pc w = some (pc1, w1, act)) : rank pc1 < rank pc := by
  cases g <;> cases pc <;>
    simp only [threadStep, Mutex.threadStep, DoubleChecked.threadStep, newObject,
      Option.some.injEq, Prod.mk.injEq, reduceCtorEq] at h
  all_goals first
    | (obtain ⟨rfl, _, _⟩ := h
       first
         | (simp only [rank]; omega)
         | (split <;> simp only [rank] <;> omega))
    | (cases hl : lock w <;>
         simp only [hl, Option.some.injEq, Prod.mk.injEq, reduceCtorEq] at h
       obtain ⟨rfl, _, _⟩ := h
       simp only [rank]; omega)

theorem threadStep_valid (g : Guarded) (a : Nat) (pc pc1 : Pc) (w w1 : World) (act : Action)
    (h : threadStep g a pc w = some (pc1, w1, act)) : validPc g pc1 = true := by
  cases g <;> cases pc <;>
    simp only [threadStep, Mutex.threadStep, DoubleChecked.threadStep, newObject,
      Option.some.injEq, Prod.mk.injEq, reduceCtorEq] at h
  all_goals first
    | (obtain ⟨rfl, _, _⟩ := h
       first
         | rfl
         | (split <;> rfl))
    | (cases hl : lock w <;>
         simp only [hl, Option.some.injEq, Prod.mk.injEq, reduceCtorEq] at h
       obtain ⟨rfl, _, _⟩ := h
       rfl)

theorem threadStep_enabled (g : Guarded) (a : Nat) (pc : Pc) (w : World)
    (hv : validPc g pc = true) (hfree : holdsLock pc = true ∨ w.mtxLocked = false)
    (hnd : ∀ h, pc ≠ .done h) : ∃ r, threadStep g a pc w = some r := by
  cases g <;> cases pc <;>
    simp_all [threadStep, Mutex.threadStep, DoubleChecked.threadStep, newObject, lock,
      validPc, holdsLock]

theorem sum_map_set_lt (l : List Pc) :
    ∀ (t : Nat) (pc pc1 : Pc), l[t]? = some pc → rank pc1 < rank pc →
      ((l.set t pc1).map rank).sum + 1 ≤ (l.map rank).sum := by
  induction l with
  | nil => intro t pc pc1 h; simp at h
  | cons x xs ih =>
    intro t pc pc1 h hr
    cases t with
    | zero =>
      simp only [List.getElem?_cons_zero, Option.some.injEq] at h
      subst h
      simp only [List.set_cons_zero, List.map_cons, List.sum_cons]
      omega
    | succ t =>
      simp only [List.getElem?_cons_succ] at h
      have := ih t pc pc1 h hr
      simp only [List.set_cons_succ, List.map_cons, List.sum_cons]
      omega

theorem sysStep_facts (g : Guarded) (addr : Nat → Nat) (s s1 : Sys) (t : Nat)
    (hstep : sysStep g addr s t = some s1) :
    s1.measure + 1 ≤ s.measure ∧ s1.threads.length = s.threads.length ∧
    ((∀ (u : Nat) (q : Pc), s.threads[u]? = some q → validPc g q = true) →
      ∀ (u : Nat) (q : Pc), s1.threads[u]? = some q → validPc g q = true) := by
  unfold sysStep at hstep
  cases hpc : s.threads[t]? with
  | none => simp [hpc] at hstep
  | some pc =>
    simp only [hpc] at hstep
    cases hts : threadStep g (addr t) pc s.world with
    | none => simp [hts] at hstep
    | some r =>
      obtain ⟨pc1, w1, act⟩ := r
      simp only [hts, Option.some.injEq] at hstep
      subst hstep
      refine ⟨sum_map_set_lt s.threads t pc pc1 hpc
        (threadStep_rank g _ pc pc1 _ w1 act hts), by simp, ?_⟩
      intro hall u q hq
      rcases getElem?_set_cases _ _ _ _ _ hq with ⟨rfl, rfl⟩ | ⟨_, hold⟩
      · exact threadStep_valid g _ pc _ _ w1 act hts
      · exact hall u q hold

theorem exec_facts (g : Guarded) (addr : Nat → Nat) (sched : List Nat) :
    ∀ (s s1 : Sys), exec g addr s sched = some s1 →
      s1.measure + sched.length ≤ s.measure ∧ s1.threads.length = s.threads.length ∧
      ((∀ (u : Nat) (q : Pc), s.threads[u]? = some q → validPc g q = true) →
        ∀ (u : Nat) (q : Pc), s1.threads[u]? = some q → validPc g q = true) := by
  induction sched with
  | nil =>
    intro s s1 h
    simp only [exec, Option.some.injEq] at h
    subst h
    exact ⟨by simp, rfl, fun h => h⟩
  | cons t ts ih =>
    intro s s1 h
    simp only [exec] at h
    cases hs : sysStep g addr s t with
    | none => simp [hs] at h
    | some s2 =>
      simp only [hs] at h
      obtain ⟨h1, h2, h3⟩ := sysStep_facts g addr s s2 t hs
      obtain ⟨k1, k2, k3⟩ := ih s2 s1 h
      refine ⟨?_, k2.trans h2, fun hall => k3 (h3 hall)⟩
      simp only [List.length_cons]
      omega

theorem initSys_facts (g : Guarded) (n : Nat) :
    (initSys g n).measure ≤ 7 * n ∧ (initSys g n).threads.length = n ∧
    ∀ (u : Nat) (q : Pc), (initSys g n).threads[u]? = some q → validPc g q = true := by
  refine ⟨?_, by simp [initSys], ?_⟩
  · simp only [Sys.measure, initSys, List.map_replicate, List.sum_replicate, smul_eq_mul]
    cases g <;> simp only [entry, rank] <;> omega
  · intro u q h
    simp only [initSys, List.getElem?_replicate] at h
    split at h
    · cases h; cases g <;> rfl
    · cases h

/-- In a state where no thread can move, every thread has returned. -/
theorem stuck_all_done (g : Guarded) (addr : Nat → Nat) (s : Sys) (owner : Option Nat)
    (hinv : ConcInv s owner)
    (hvalid : ∀ (u : Nat) (q : Pc), s.threads[u]? = some q → validPc g q = true)
    (hstuck : s.stuck g addr) :
    ∀ (u : Nat) (q : Pc), s.threads[u]? = some q → q = .done s.world.instancePtr := by
  have hno : ∀ (u : Nat) (q : Pc), s.threads[u]? = some q →
      (holdsLock q = true ∨ s.world.mtxLocked = false) → ∃ h, q = .done h := by
    intro u q hq hfree
    by_contra hnd
    have hnd1 : ∀ h, q ≠ .done h := fun h e => hnd ⟨h, e⟩
    obtain ⟨r, hr⟩ := threadStep_enabled g (addr u) q s.world (hvalid u q hq) hfree hnd1
    have := hstuck u
    simp [sysStep, hq, hr] at this
  have hfree : s.world.mtxLocked = false := by
    cases ho : owner with
    | none => rw [hinv.locked, ho]; rfl
    | some t0 =>
      obtain ⟨q, hq⟩ := hinv.ownerValid t0 ho
      have hl := (hinv.holds t0 q hq).2 ho
      obtain ⟨h, rfl⟩ := hno t0 q hq (Or.inl hl)
      simp [holdsLock] at hl
  intro u q hq
  obtain ⟨h, rfl⟩ := hno u q hq (Or.inr hfree)
  have := hinv.loc u _ hq
  rw [this.1]

/-- Every interleaving can be continued until every thread has returned. -/
theorem exists_completion (g : Guarded) (addr : Nat → Nat) :
    ∀ (m : Nat) (s : Sys), s.measure ≤ m →
      ∃ (rest : List Nat) (s1 : Sys), exec g addr s rest = some s1 ∧ s1.stuck g addr := by
  intro m
  induction m with
  | zero =>
    intro s hm
    by_cases hst : s.stuck g addr
    · exact ⟨[], s, rfl, hst⟩
    · simp only [Sys.stuck, not_forall] at hst
      obtain ⟨t, ht⟩ := hst
      cases hs : sysStep g addr s t with
      | none => exact absurd hs ht
      | some s2 =>
        have := (sysStep_facts g addr s s2 t hs).1
        omega
  | succ m ih =>
    intro s hm
    by_cases hst : s.stuck g addr
    · exact ⟨[], s, rfl, hst⟩
    · simp only [Sys.stuck, not_forall] at hst
      obtain ⟨t, ht⟩ := hst
      cases hs : sysStep g addr s t with
      | none => exact absurd hs ht
      | some s2 =>
        have := (sysStep_facts g addr s s2 t hs).1
        obtain ⟨rest, s1, hr, hs1⟩ := ih s2 (by omega)
        exact ⟨t :: rest, s1, by simp [exec, hs, hr], hs1⟩


theorem exec_append (g : Guarded) (addr : Nat → Nat) (xs ys : List Nat) :
    ∀ (s s1 s2 : Sys), exec g addr s xs = some s1 → exec g addr s1 ys = some s2 →
      exec g addr s (xs ++ ys) = some s2 := by
  induction xs with
  | nil =>
    intro s s1 s2 h1 h2
    simp only [exec, Option.some.injEq] at h1
    subst h1
    exact h2
  | cons t ts ih =>
    intro s s1 s2 h1 h2
    simp only [exec] at h1
    cases hs : sysStep g addr s t with
    | none => simp [hs] at h1
    | some s3 =>
      simp only [hs] at h1
      simp only [List.cons_append, exec, hs]
      exact ih s3 s1 s2 h1 h2

/-- What holds once every thread of an interleaving has returned. -/
theorem final_facts (g : Guarded) (n : Nat) (hn : 0 < n) (addr : Nat → Nat)
    (sched : List Nat) (s : Sys) (hrun : exec g addr (initSys g n) sched = some s)
    (hstuck : s.stuck g addr) :
    s.world.ctorCalls = 1 ∧ ∃ a, s.threads = List.replicate n (.done (some a)) := by
  obtain ⟨owner, hinv⟩ := concInv_exec g addr sched _ s none (concInv_init g n) hrun
  obtain ⟨_, hlen, hvalid⟩ := exec_facts g addr sched _ s hrun
  obtain ⟨_, hlen0, hvalid0⟩ := initSys_facts g n
  have hdone := stuck_all_done g addr s owner hinv (hvalid hvalid0) hstuck
  have hlen1 : s.threads.length = n := hlen.trans hlen0
  have h0 : s.threads[0]? = some s.threads[0] := List.getElem?_eq_getElem (by omega)
  have hq := hdone 0 _ h0
  have hl := hinv.loc 0 _ h0
  rw [hq] at hl
  have hne : s.world.instancePtr ≠ none := hl.2
  have hc : s.world.ctorCalls = 1 := by
    rcases hinv.count with h | h
    · exact absurd h.1 hne
    · exact h.1
  cases hp : s.world.instancePtr with
  | none => exact absurd hp hne
  | some a =>
    refine ⟨hc, a, ?_⟩
    rw [List.eq_replicate_iff]
    refine ⟨hlen1, ?_⟩
    intro q hq1
    obtain ⟨u, hu⟩ := List.getElem?_of_mem hq1
    rw [hdone u q hu, hp]

/-- One thread alone, stepping through `getInstance` to the end, does what the
function `getInstance` does in one go. -/
theorem single_thread_agrees (g : Guarded) (addr : Nat → Nat) (w : World)
    (hfree : w.mtxLocked = false) :
    ∃ (sched : List Nat) (s : Sys),
      exec g addr { world := w, threads := [entry g], trace := [] } sched = some s ∧
      s.world = (getInstance g.toVariant (.ok (addr 0)) w).2 ∧
      (getInstance g.toVariant (.ok (addr 0)) w).1 = .returned s.world.instancePtr ∧
      s.threads = [.done s.world.instancePtr] := by
  cases hp : w.instancePtr with
  | none =>
    cases g
    · refine ⟨[0, 0, 0, 0, 0, 0], ?_⟩
      simp [exec, sysStep, threadStep, Mutex.threadStep, entry, lock, unlock, newObject,
        hfree, hp, getInstance, Mutex.getInstance, Guarded.toVariant]
    · refine ⟨[0, 0, 0, 0, 0, 0, 0], ?_⟩
      simp [exec, sysStep, threadStep, DoubleChecked.threadStep, entry, lock, unlock,
        newObject, hfree, hp, getInstance, DoubleChecked.getInstance,
        DoubleChecked.slowPath, Guarded.toVariant]
  | some a =>
    cases g
    · refine ⟨[0, 0, 0, 0], ?_⟩
      simp [exec, sysStep, threadStep, Mutex.threadStep, entry, lock, unlock, newObject,
        hfree, hp, getInstance, Mutex.getInstance, Guarded.toVariant]
    · refine ⟨[0, 0], ?_⟩
      simp [exec, sysStep, threadStep, DoubleChecked.threadStep, entry, lock, unlock,
        newObject, hfree, hp, getInstance, DoubleChecked.getInstance,
        DoubleChecked.slowPath, Guarded.toVariant]


/-- C3. Let `n ≥ 1` threads call the `getInstance` of `mutex.cpp` or of
`Double-checked Locking.cpp` with no call made before, and let them take
their steps in any order.  At every moment the construction logic has run at
most once, and any two threads that have returned hold the same non-null
handle (and then it has run exactly once).  No interleaving is longer than
`7 * n` steps, every interleaving can be continued to one in which no thread
can move, and when no thread can move the constructor has run exactly once
and all `n` threads have returned one and the same handle. -/
theorem concurrent_single_instance (g : Guarded) (n : Nat) (hn : 0 < n) (addr : Nat → Nat)
    (sched : List Nat) (s : Sys) (hrun : exec g addr (initSys g n) sched = some s) :
    s.world.ctorCalls ≤ 1 ∧
    (∀ (t u : Nat) (h1 h2 : Ptr), s.threads[t]? = some (.done h1) →
      s.threads[u]? = some (.done h2) →
      h1 = h2 ∧ h1 ≠ none ∧ s.world.ctorCalls = 1) ∧
    sched.length ≤ 7 * n ∧
    (∃ (rest : List Nat) (s1 : Sys), exec g addr s rest = some s1 ∧ s1.stuck g addr) ∧
    (s.stuck g addr →
      s.world.ctorCalls = 1 ∧ ∃ a, s.threads = List.replicate n (.done (some a))) := by
  obtain ⟨owner, hinv⟩ := concInv_exec g addr sched _ s none (concInv_init g n) hrun
  obtain ⟨hm, _, _⟩ := exec_facts g addr sched _ s hrun
  obtain ⟨hm0, _, _⟩ := initSys_facts g n
  refine ⟨?_, ?_, by omega, exists_completion g addr s.measure s (Nat.le_refl _),
    final_facts g n hn addr sched s hrun⟩
  · rcases hinv.count with h | h
    · rw [h.2]; exact Nat.zero_le 1
    · rw [h.1]
  · intro t u h1 h2 ht hu
    have l1 := hinv.loc t _ ht
    have l2 := hinv.loc u _ hu
    refine ⟨l1.1.trans l2.1.symm, by rw [l1.1]; exact l1.2, ?_⟩
    rcases hinv.count with h | h
    · exact absurd h.1 l1.2
    · exact h.1

/-- C3, at a concrete input: three threads, as in `main` of
`Double-checked Locking.cpp`; two of them pass the first check before the
third has published. -/
theorem concurrent_single_instance_witness :
    (0 < 3 ∧
      exec .doubleChecked (fun t => 100 + t) (initSys .doubleChecked 3)
        [0, 1, 1, 1, 1, 1, 1, 0, 0, 0, 2, 1, 0, 2] =
      some
        { world := { instancePtr := some 101, mtxLocked := false, ctorCalls := 1,
                     lockAcqs := 2, lockRels := 2, out := ["Constructor Called!\n"] },
          threads := [.done (some 101), .done (some 101), .done (some 101)],
          trace :=
            [⟨0, .readInstance none⟩, ⟨1, .readInstance none⟩, ⟨1, .lockMtx⟩,
             ⟨1, .readInstance none⟩, ⟨1, .runCtor 101⟩, ⟨1, .writeInstance 101⟩,
             ⟨1, .unlockMtx⟩, ⟨0, .lockMtx⟩, ⟨0, .readInstance (some 101)⟩,
             ⟨0, .unlockMtx⟩, ⟨2, .readInstance (some 101)⟩,
             ⟨1, .readInstance (some 101)⟩, ⟨0, .readInstance (some 101)⟩,
             ⟨2, .readInstance (some 101)⟩] }) ∧
    (1 : Nat) ≤ 1 ∧ (14 : Nat) ≤ 7 * 3 :=
  ⟨⟨by decide, rfl⟩,
   (concurrent_single_instance .doubleChecked 3 (by decide) (fun t => 100 + t)
      [0, 1, 1, 1, 1, 1, 1, 0, 0, 0, 2, 1, 0, 2] _ rfl).1,
   (concurrent_single_instance .doubleChecked 3 (by decide) (fun t => 100 + t)
      [0, 1, 1, 1, 1, 1, 1, 0, 0, 0, 2, 1, 0, 2] _ rfl).2.2.1⟩

/-! ## Ordering of the accesses to `instance` -/


theorem happensBefore_lt (tr : List Event) (i j : Nat) (h : HappensBefore tr i j) :
    i < j ∧ j < tr.length := by
  induction h with
  | sb i j h =>
    obtain ⟨hlt, _, e2, _, h2, _⟩ := h
    exact ⟨hlt, (List.getElem?_eq_some_iff.1 h2).1⟩
  | sw i j h =>
    obtain ⟨hlt, _, e2, _, h2, _⟩ := h
    exact ⟨hlt, (List.getElem?_eq_some_iff.1 h2).1⟩
  | trans i j k _ _ ih1 ih2 => exact ⟨by omega, ih2.2⟩

theorem noLockBy_spec (tr : List Event) (t j k : Nat) (e : Event)
    (h : noLockBy tr t j = true) (hk : k ≤ j) (he : tr[k]? = some e) (ht : e.tid = t) :
    e.act ≠ .lockMtx := by
  have hmem : e ∈ tr.take (j + 1) := by
    rw [List.mem_iff_getElem?]
    refine ⟨k, ?_⟩
    rw [List.getElem?_take]
    simp [show k < j + 1 by omega, he]
  have := List.all_eq_true.1 h e hmem
  intro hact
  simp [ht, hact] at this

theorem noLockBy_mono (tr : List Event) (t j k : Nat) (h : noLockBy tr t j = true)
    (hk : k ≤ j) : noLockBy tr t k = true := by
  unfold noLockBy at *
  rw [List.all_eq_true] at *
  intro e he
  apply h e
  have : tr.take (k + 1) = (tr.take (j + 1)).take (k + 1) := by
    rw [List.take_take]
    congr 1
    omega
  rw [this] at he
  exact List.mem_of_mem_take he

/-- A step of a thread that has locked nothing so far comes after the steps of
that thread only: nothing another thread did happens before it. -/
theorem happensBefore_same_thread (tr : List Event) (i j : Nat)
    (h : HappensBefore tr i j) :
    ∀ (ei ej : Event), tr[i]? = some ei → tr[j]? = some ej →
      noLockBy tr ej.tid j = true → ei.tid = ej.tid := by
  induction h with
  | sb i j h =>
    intro ei ej hi hj _
    obtain ⟨_, e1, e2, h1, h2, ht⟩ := h
    rw [hi] at h1; rw [hj] at h2
    cases h1; cases h2
    exact ht
  | sw i j h =>
    intro ei ej hi hj hno
    obtain ⟨_, e1, e2, _, h2, _, hl⟩ := h
    rw [hj] at h2
    cases h2
    exact absurd hl (noLockBy_spec tr ej.tid j j ej hno (Nat.le_refl _) hj rfl)
  | trans i m k h1 h2 ih1 ih2 =>
    intro ei ek hi hk hno
    have hm := happensBefore_lt tr i m h1
    have hmk := happensBefore_lt tr m k h2
    have hem : tr[m]? = some tr[m] := List.getElem?_eq_getElem (by omega)
    have e2 := ih2 _ ek hem hk hno
    have e1 := ih1 ei _ hi hem (by
      rw [e2]; exact noLockBy_mono tr ek.tid k m hno (by omega))
    exact e1.trans e2

/-- In `mutex.cpp` every access to `instance` is made under the lock: in the
same schedule - thread 0 first and to the end, then thread 1 - the write of
thread 0 (step 3) happens before the read of thread 1 (step 7), through the
unlock of step 5 and the lock of step 6. -/
theorem mutex_read_ordered :
    ∃ s : Sys,
      exec .mutexGuarded (fun t => 100 + t) (initSys .mutexGuarded 2)
        [0, 0, 0, 0, 0, 0, 1, 1, 1, 1] = some s ∧
      s.trace[3]? = some ⟨0, .writeInstance 100⟩ ∧
      s.trace[7]? = some ⟨1, .readInstance (some 100)⟩ ∧
      HappensBefore s.trace 3 7 := by
  refine ⟨_, rfl, rfl, rfl, ?_⟩
  refine HappensBefore.trans 3 5 7 (HappensBefore.sb 3 5 ⟨by decide, _, _, rfl, rfl, rfl⟩)
    (HappensBefore.trans 5 6 7 (HappensBefore.sw 5 6 ⟨by decide, _, _, rfl, rfl, rfl, rfl⟩)
      (HappensBefore.sb 6 7 ⟨by decide, _, _, rfl, rfl, rfl⟩))


/-- C7, the program of `main` in `Double-checked Locking.cpp` (three threads
call `getInstance`), thread 0 first and to the end, then thread 1.  Step 3 is
the constructor run by thread 0, step 4 its write to `instance`, step 7 the
unlocked first check of thread 1, which reads the address written in step 4
and so takes the fast path.  Neither the constructor nor the write happens
before that read: the two accesses to `instance` are unordered. -/
theorem dcl_fast_read_not_ordered :
    ∃ s : Sys,
      exec .doubleChecked (fun t => 100 + t) (initSys .doubleChecked 3)
        [0, 0, 0, 0, 0, 0, 0, 1, 1, 2, 2] = some s ∧
      s.threads = [.done (some 100), .done (some 100), .done (some 100)] ∧
      s.trace[3]? = some ⟨0, .runCtor 100⟩ ∧
      s.trace[4]? = some ⟨0, .writeInstance 100⟩ ∧
      s.trace[7]? = some ⟨1, .readInstance (some 100)⟩ ∧
      ¬ HappensBefore s.trace 4 7 ∧ ¬ HappensBefore s.trace 7 4 ∧
      ¬ HappensBefore s.trace 3 7 := by
  refine ⟨_, rfl, rfl, rfl, rfl, rfl, ?_, ?_, ?_⟩
  · intro h
    have := happensBefore_same_thread _ 4 7 h ⟨0, .writeInstance 100⟩
      ⟨1, .readInstance (some 100)⟩ rfl rfl (by decide)
    exact absurd this (by decide)
  · intro h
    have := (happensBefore_lt _ 7 4 h).1
    omega
  · intro h
    have := happensBefore_same_thread _ 3 7 h ⟨0, .runCtor 100⟩
      ⟨1, .readInstance (some 100)⟩ rfl rfl (by decide)
    exact absurd this (by decide)

end Singleton
